import Mathlib

/-! # The `linkerd doc` command (`cli/cmd/doc.go`)

A shallow embedding of `generateCLIDocs`, `generateAnnotationsDocs` and the `RunE` closure of
`newCmdDoc`, followed by the properties established for them.

Conventions of the embedding:

* a Go result pair `(value, error)` is an `Except Error value`; `return nil, err` is
  `.error err` and `return v, nil` is `.ok v`;
* a Go slice is a `List` (the `nil` slice is `[]`);
* a Go `string` is a `String`; the only string operations used are concatenation, equality and
  `strings.TrimPrefix` with the ASCII prefix `"linkerd "`, which agree on bytes and on characters;
* a `*cobra.Command` is a `Command` node together with the command path of its parent
  (`parent : Option String`, `none` for a command without parent), which stands for the
  parent pointer that `cmd.CommandPath()` follows.
-/

namespace DocCmd

/-- Go's `error` values. -/
abbrev Error := String

/-! ## Types of `doc.go` -/

/-- `type cmdOption struct` (doc.go, lines 21-26). -/
structure cmdOption where
  Name : String
  Shorthand : String
  DefaultValue : String
  Usage : String
  deriving DecidableEq, Repr

/-- `type cmdDoc struct` (doc.go, lines 28-36). -/
structure cmdDoc where
  Name : String
  Synopsis : String
  Description : String
  Options : List cmdOption
  InheritedOptions : List cmdOption
  Example : String
  SeeAlso : List String
  deriving DecidableEq, Repr

/-- `type annotationDoc struct` (doc.go, lines 38-41). -/
structure annotationDoc where
  Name : String
  Description : String
  deriving DecidableEq, Repr

/-- `type references struct` (doc.go, lines 16-19). -/
structure references where
  CLIReference : List cmdDoc
  AnnotationsReference : List annotationDoc
  deriving DecidableEq, Repr

/-! ## The command hierarchy read by the walker -/

/-- Modelled from the spec: the per-node data of a `cobra.Command` (the hosting framework is not
part of the repository). Section 6 of the specification lists what a node exposes: name,
availability flag, help-topic flag, synopsis, description, example text, declared options,
inherited options and related-command references. `genYamlErr` is the error, if any, with which
the framework fails to produce the node's metadata. -/
structure CommandData where
  Name : String
  Short : String
  Long : String
  Example : String
  Options : List cmdOption
  InheritedOptions : List cmdOption
  SeeAlso : List String
  IsAvailableCommand : Bool
  IsAdditionalHelpTopicCommand : Bool
  genYamlErr : Option Error
  deriving DecidableEq, Repr

/-- A command node: its data and its children, in the order `cmd.Commands()` yields them. -/
inductive Command where
  | mk (data : CommandData) (commands : List Command)

/-- The data of a node. -/
def Command.data : Command → CommandData
  | .mk d _ => d

/-- `cmd.Commands()`: the children of a node. -/
def Command.Commands : Command → List Command
  | .mk _ cs => cs

/-- `c.IsAvailableCommand()`. -/
def Command.IsAvailableCommand (c : Command) : Bool :=
  c.data.IsAvailableCommand

/-- `c.IsAdditionalHelpTopicCommand()`. -/
def Command.IsAdditionalHelpTopicCommand (c : Command) : Bool :=
  c.data.IsAdditionalHelpTopicCommand

/-- Modelled from the spec: `cmd.CommandPath()` of the framework, the names of the ancestors from
the root and the node's own name joined by single spaces; `parent` is the command path of the
parent, `none` for a command without parent. -/
def CommandPath (parent : Option String) (d : CommandData) : String :=
  match parent with
  | none => d.Name
  | some p => p ++ " " ++ d.Name

/-! ## Go's `strings` functions used by the walker -/

/-- `strings.HasPrefix(s, prefix)`: `len(s) >= len(prefix) && s[:len(prefix)] == prefix`. -/
def HasPrefix (s pre : String) : Bool :=
  decide (pre.data.length ≤ s.data.length) && (s.data.take pre.data.length == pre.data)

/-- `strings.TrimPrefix(s, prefix)`: `s[len(prefix):]` when `s` has the prefix, else `s`. -/
def TrimPrefix (s pre : String) : String :=
  if HasPrefix s pre then ⟨s.data.drop pre.data.length⟩ else s

/-! ## The framework's YAML form of a node and its decoding -/

/-- The values occurring in the YAML document of a command: a scalar, a sequence of scalars, or
a sequence of mappings with scalar values. -/
inductive YamlValue where
  | scalar (s : String)
  | strings (xs : List String)
  | mappings (ms : List (List (String × String)))
  deriving DecidableEq, Repr

/-- A YAML mapping at the top level of a document. -/
abbrev YamlDoc := List (String × YamlValue)

/-- Modelled from the spec: the YAML mapping that the framework (not part of the repository)
writes for one option `{name, shorthand, default_value, usage}`, under these four keys. -/
def optionYaml (o : cmdOption) : List (String × String) :=
  [("name", o.Name), ("shorthand", o.Shorthand), ("default_value", o.DefaultValue),
   ("usage", o.Usage)]

/-- Modelled from the spec: `cobradoc.GenYaml(cmd, &buf)` of the framework (not part of the
repository). It fails with the node's `genYamlErr` when there is one; otherwise the buffer holds
the node's YAML form, a mapping with the framework's keys `name` (the command path), `synopsis`,
`description`, `options`, `inherited_options`, `example` and `see_also`. -/
def GenYaml (parent : Option String) (d : CommandData) : Except Error YamlDoc :=
  match d.genYamlErr with
  | some err => .error err
  | none =>
    .ok [("name", .scalar (CommandPath parent d)),
         ("synopsis", .scalar d.Short),
         ("description", .scalar d.Long),
         ("options", .mappings (d.Options.map optionYaml)),
         ("inherited_options", .mappings (d.InheritedOptions.map optionYaml)),
         ("example", .scalar d.Example),
         ("see_also", .strings d.SeeAlso)]

/-- Case-insensitive comparison of a key with a field name (`strings.EqualFold` on ASCII). -/
def EqualFold (a b : String) : Bool :=
  a.data.map Char.toLower == b.data.map Char.toLower

/-- The value of the first key that matches the field name up to case: how the decoder finds the
key of a struct field that has no tag. -/
def lookupField {α : Type} (field : String) : List (String × α) → Option α
  | [] => none
  | (k, v) :: rest => if EqualFold k field then some v else lookupField field rest

/-- Decoding of a `string` field: absent keys leave the zero value, a non-scalar is an error. -/
def stringField (field : String) (doc : YamlDoc) : Except Error String :=
  match lookupField field doc with
  | none => .ok ""
  | some (.scalar s) => .ok s
  | some _ => .error ("cannot unmarshal into field " ++ field ++ " of type string")

/-- Decoding of one mapping into a `cmdOption` (fields without tags). -/
def unmarshalOption (m : List (String × String)) : cmdOption :=
  { Name := (lookupField "Name" m).getD ""
    Shorthand := (lookupField "Shorthand" m).getD ""
    DefaultValue := (lookupField "DefaultValue" m).getD ""
    Usage := (lookupField "Usage" m).getD "" }

/-- Decoding of a `[]cmdOption` field. -/
def optionsField (field : String) (doc : YamlDoc) : Except Error (List cmdOption) :=
  match lookupField field doc with
  | none => .ok []
  | some (.mappings ms) => .ok (ms.map unmarshalOption)
  | some _ => .error ("cannot unmarshal into field " ++ field ++ " of type []cmdOption")

/-- Decoding of a `[]string` field. -/
def stringsField (field : String) (doc : YamlDoc) : Except Error (List String) :=
  match lookupField field doc with
  | none => .ok []
  | some (.strings xs) => .ok xs
  | some _ => .error ("cannot unmarshal into field " ++ field ++ " of type []string")

/-- Modelled from the spec: `yaml.Unmarshal(buf.Bytes(), &doc)` of the YAML library (not part of
the repository) into the `cmdDoc` of doc.go (lines 28-36). The fields of `cmdDoc` and `cmdOption`
carry no tags, so the library goes by the field names: a key fills the field whose name it
equals up to case, a key that matches no field is ignored, a field without key keeps its zero
value, and a value of the wrong kind is an error. -/
def Unmarshal (buf : YamlDoc) : Except Error cmdDoc :=
  match stringField "Name" buf with
  | .error err => .error err
  | .ok name =>
  match stringField "Synopsis" buf with
  | .error err => .error err
  | .ok synopsis =>
  match stringField "Description" buf with
  | .error err => .error err
  | .ok description =>
  match optionsField "Options" buf with
  | .error err => .error err
  | .ok options =>
  match optionsField "InheritedOptions" buf with
  | .error err => .error err
  | .ok inherited =>
  match stringField "Example" buf with
  | .error err => .error err
  | .ok example_ =>
  match stringsField "SeeAlso" buf with
  | .error err => .error err
  | .ok seeAlso =>
    .ok { Name := name, Synopsis := synopsis, Description := description, Options := options,
          InheritedOptions := inherited, Example := example_, SeeAlso := seeAlso }

/-! ## `generateCLIDocs` (doc.go, lines 78-114) -/

mutual
/-- `func generateCLIDocs(cmd *cobra.Command) ([]cmdDoc, error)`: the loop over the children, then
the node's own record. -/
def generateCLIDocs (parent : Option String) : Command → Except Error (List cmdDoc)
  | .mk d commands =>
    -- for _, c := range cmd.Commands() { ... }
    match rangeCommands (some (CommandPath parent d)) commands [] with
    | .error err => .error err
    | .ok cmdList =>
      -- cobradoc.GenYaml(cmd, io.Writer(&buf))
      match GenYaml parent d with
      | .error err => .error err
      | .ok buf =>
        -- yaml.Unmarshal(buf.Bytes(), &doc)
        match Unmarshal buf with
        | .error err => .error err
        | .ok doc =>
          -- doc.Name = strings.TrimPrefix(doc.Name, "linkerd ")
          let doc := { doc with Name := TrimPrefix doc.Name "linkerd " }
          -- if doc.Name != "linkerd" { cmdList = append(cmdList, doc) }
          if doc.Name ≠ "linkerd" then .ok (cmdList ++ [doc]) else .ok cmdList
/-- The body of `for _, c := range cmd.Commands()` run over the remaining children, with the
`cmdList` collected so far; `self` is the command path of `cmd`. -/
def rangeCommands (self : Option String) : List Command → List cmdDoc → Except Error (List cmdDoc)
  | [], cmdList => .ok cmdList
  | c :: rest, cmdList =>
    -- if !c.IsAvailableCommand() || c.IsAdditionalHelpTopicCommand() { continue }
    if !c.IsAvailableCommand || c.IsAdditionalHelpTopicCommand then
      rangeCommands self rest cmdList
    else
      -- subList, err := generateCLIDocs(c)
      match generateCLIDocs self c with
      | .error err => .error err
      | .ok subList => rangeCommands self rest (cmdList ++ subList)
end

/-! ## Notions used to state the properties of the walker -/

/-- The eligibility test of the loop: the child is available and not a help topic, the negation of
the `continue` condition on line 82. -/
def eligible (c : Command) : Bool :=
  c.IsAvailableCommand && !c.IsAdditionalHelpTopicCommand

/-- Lines 94-106 for one node: the record decoded from the node's YAML form, with its name
normalised; `parent` is the command path of the node's parent. -/
def commandDoc (parent : Option String) (d : CommandData) : Except Error cmdDoc :=
  match GenYaml parent d with
  | .error err => .error err
  | .ok buf =>
    match Unmarshal buf with
    | .error err => .error err
    | .ok doc => .ok { doc with Name := TrimPrefix doc.Name "linkerd " }

mutual
/-- The nodes the walker processes, in the order in which it extracts their metadata: the
argument node last, after the nodes processed for each eligible child in turn. Every node comes
with the command path of its parent. -/
def visited (parent : Option String) : Command → List (Option String × CommandData)
  | .mk d commands => visitedChildren (some (CommandPath parent d)) commands ++ [(parent, d)]
/-- The nodes processed while looping over the given children of the node with path `self`. -/
def visitedChildren (self : Option String) : List Command → List (Option String × CommandData)
  | [] => []
  | c :: rest =>
    if eligible c then visited self c ++ visitedChildren self rest
    else visitedChildren self rest
end

mutual
/-- The post-order listing of a hierarchy, in the words of the specification: all children first,
in the order in which they are listed on the node, then the node itself. -/
def postorder (parent : Option String) : Command → List (Option String × CommandData)
  | .mk d commands => postorderList (some (CommandPath parent d)) commands ++ [(parent, d)]
/-- The post-order listings of the given children of the node with path `self`, concatenated. -/
def postorderList (self : Option String) : List Command → List (Option String × CommandData)
  | [] => []
  | c :: rest => postorder self c ++ postorderList self rest
end

mutual
/-- Every node of the hierarchy is available and none is a help topic. -/
def allEligible : Command → Bool
  | .mk d commands =>
    d.IsAvailableCommand && !d.IsAdditionalHelpTopicCommand && allEligibleList commands
/-- Every node of the given subtrees is eligible. -/
def allEligibleList : List Command → Bool
  | [] => true
  | c :: rest => allEligible c && allEligibleList rest
end

/-- The records of a list of nodes, in order: fails with the error of the first node whose
extraction fails, and leaves out the records whose normalised name is `"linkerd"`. -/
def recordsOf : List (Option String × CommandData) → Except Error (List cmdDoc)
  | [] => .ok []
  | n :: rest =>
    match commandDoc n.1 n.2 with
    | .error err => .error err
    | .ok doc =>
      match recordsOf rest with
      | .error err => .error err
      | .ok docs => .ok (if doc.Name ≠ "linkerd" then doc :: docs else docs)

/-! ## `generateAnnotationsDocs` (doc.go, lines 117-236) -/

/-- The annotation keys of package `pkg/k8s` that doc.go refers to. Their values are defined
outside doc.go and are taken as a parameter. -/
structure k8s where
  ProxyInjectAnnotation : String
  ProxyImageAnnotation : String
  ProxyImagePullPolicyAnnotation : String
  ProxyInitImageAnnotation : String
  ProxyInitImageVersionAnnotation : String
  DebugImageAnnotation : String
  DebugImageVersionAnnotation : String
  DebugImagePullPolicyAnnotation : String
  ProxyControlPortAnnotation : String
  ProxyIgnoreInboundPortsAnnotation : String
  ProxyOpaquePortsAnnotation : String
  ProxyIgnoreOutboundPortsAnnotation : String
  ProxyInboundPortAnnotation : String
  ProxyAdminPortAnnotation : String
  ProxyOutboundPortAnnotation : String
  ProxyCPURequestAnnotation : String
  ProxyMemoryRequestAnnotation : String
  ProxyCPULimitAnnotation : String
  ProxyMemoryLimitAnnotation : String
  ProxyUIDAnnotation : String
  ProxyLogLevelAnnotation : String
  ProxyLogFormatAnnotation : String
  ProxyEnableExternalProfilesAnnotation : String
  ProxyVersionOverrideAnnotation : String
  ProxyDisableIdentityAnnotation : String
  ProxyEnableDebugAnnotation : String
  ProxyOutboundConnectTimeout : String
  ProxyWaitBeforeExitSecondsAnnotation : String
  AwaitProxy : String
  deriving Inhabited

/-- `func generateAnnotationsDocs() []annotationDoc`. -/
def generateAnnotationsDocs (k : k8s) : List annotationDoc :=
  [
    { Name := k8s.ProxyInjectAnnotation k,
      Description := "Controls whether or not a pod should be injected; accepted values are `enabled`, `disabled` and `ingress`" },
    { Name := k8s.ProxyImageAnnotation k,
      Description := "Linkerd proxy container image name" },
    { Name := k8s.ProxyImagePullPolicyAnnotation k,
      Description := "Docker image pull policy" },
    { Name := k8s.ProxyInitImageAnnotation k,
      Description := "Linkerd init container image name" },
    { Name := k8s.ProxyInitImageVersionAnnotation k,
      Description := "Linkerd init container image version" },
    { Name := k8s.DebugImageAnnotation k,
      Description := "Linkerd debug container image name" },
    { Name := k8s.DebugImageVersionAnnotation k,
      Description := "Linkerd debug container image version" },
    { Name := k8s.DebugImagePullPolicyAnnotation k,
      Description := "Docker image pull policy for debug image" },
    { Name := k8s.ProxyControlPortAnnotation k,
      Description := "Proxy port to use for control" },
    { Name := k8s.ProxyIgnoreInboundPortsAnnotation k,
      Description := "Ports that should skip the proxy and send directly to the application. Comma-separated list of values, where each value can be a port number or a range `a-b`." },
    { Name := k8s.ProxyOpaquePortsAnnotation k,
      Description := "Ports that skip the proxy's protocol detection mechanism and are proxied opaquely. Comma-separated list of values, where each value can be a port number or a range `a-b`." },
    { Name := k8s.ProxyIgnoreOutboundPortsAnnotation k,
      Description := "Outbound ports that should skip the proxy. Comma-separated list of values, where each value can be a port number or a range `a-b`." },
    { Name := k8s.ProxyInboundPortAnnotation k,
      Description := "Proxy port to use for inbound traffic" },
    { Name := k8s.ProxyAdminPortAnnotation k,
      Description := "Proxy port to serve metrics on" },
    { Name := k8s.ProxyOutboundPortAnnotation k,
      Description := "Proxy port to use for outbound traffic" },
    { Name := k8s.ProxyCPURequestAnnotation k,
      Description := "Amount of CPU units that the proxy sidecar requests" },
    { Name := k8s.ProxyMemoryRequestAnnotation k,
      Description := "Amount of Memory that the proxy sidecar requests" },
    { Name := k8s.ProxyCPULimitAnnotation k,
      Description := "Maximum amount of CPU units that the proxy sidecar can use" },
    { Name := k8s.ProxyMemoryLimitAnnotation k,
      Description := "Maximum amount of Memory that the proxy sidecar can use" },
    { Name := k8s.ProxyUIDAnnotation k,
      Description := "Run the proxy under this user ID" },
    { Name := k8s.ProxyLogLevelAnnotation k,
      Description := "Log level for the proxy" },
    { Name := k8s.ProxyLogFormatAnnotation k,
      Description := "Log format (plain or json) for the proxy" },
    { Name := k8s.ProxyEnableExternalProfilesAnnotation k,
      Description := "Enable service profiles for non-Kubernetes services" },
    { Name := k8s.ProxyVersionOverrideAnnotation k,
      Description := "Tag to be used for the Linkerd proxy images" },
    { Name := k8s.ProxyDisableIdentityAnnotation k,
      Description := "Disables resources from participating in TLS identity" },
    { Name := k8s.ProxyEnableDebugAnnotation k,
      Description := "Inject a debug sidecar for data plane debugging" },
    { Name := k8s.ProxyOutboundConnectTimeout k,
      Description := "Used to configure the outbound TCP connection timeout in the proxy" },
    { Name := k8s.ProxyWaitBeforeExitSecondsAnnotation k,
      Description := "The proxy sidecar will stay alive for at least the given period before receiving SIGTERM signal from Kubernetes but no longer than pod's `terminationGracePeriodSeconds`. If not provided, it will be defaulted to `0`" },
    { Name := k8s.AwaitProxy k,
      Description := "The application container will not start until the proxy is ready" }
  ]

/-! ## The `RunE` closure of `newCmdDoc` (doc.go, lines 49-70) -/

/-- Lines 50-60 of `RunE`: the `references` value that is handed to `yaml.Marshal`, or the error
of `generateCLIDocs`. `RootCmd` is the root of the hierarchy, a command without parent. -/
def newCmdDoc_references (k : k8s) (RootCmd : Command) : Except Error references :=
  -- cmdList, err := generateCLIDocs(RootCmd)
  match generateCLIDocs none RootCmd with
  | .error err => .error err
  | .ok cmdList =>
    let annotations := generateAnnotationsDocs k
    .ok { CLIReference := cmdList, AnnotationsReference := annotations }

/-- The first line of the output. -/
def warn : String :=
  "# Automatically generated by the linkerd doc command, do not manually edit"

/-- `RunE`: what is written to the standard output, and the error returned. `Marshal` stands for
`yaml.Marshal` of the YAML library. -/
def newCmdDoc_RunE (k : k8s) (Marshal : references → Except Error String) (RootCmd : Command) :
    String × Option Error :=
  match newCmdDoc_references k RootCmd with
  | .error err => ("", some err)
  | .ok ref =>
    -- out, err := yaml.Marshal(ref)
    match Marshal ref with
    | .error err => ("", some err)
    | .ok out =>
      -- fmt.Printf("%s\n\n%s\n", warn, out)
      (warn ++ "\n\n" ++ out ++ "\n", none)

/-! ## Sample hierarchies -/

/-- The data of an available command that is no help topic, has the given name and no other
metadata, and whose extraction succeeds. -/
def plain (name : String) : CommandData :=
  { Name := name, Short := "", Long := "", Example := "", Options := [], InheritedOptions := [],
    SeeAlso := [], IsAvailableCommand := true, IsAdditionalHelpTopicCommand := false,
    genYamlErr := none }

/-- The record with the given name and no other metadata. -/
def docNamed (name : String) : cmdDoc :=
  { Name := name, Synopsis := "", Description := "", Options := [], InheritedOptions := [],
    Example := "", SeeAlso := [] }

/-- The hierarchy `linkerd -> [A -> [A1, A2], B]`, all nodes eligible. -/
def treeAB : Command :=
  .mk (plain "linkerd")
    [.mk (plain "A") [.mk (plain "A1") [], .mk (plain "A2") []], .mk (plain "B") []]

/-- The hierarchy `linkerd -> [A -> [A1]]` in which `A` is unavailable and `A1` is eligible. -/
def treeHidden : Command :=
  .mk (plain "linkerd")
    [.mk { plain "A" with IsAvailableCommand := false } [.mk (plain "A1") []]]

/-- The hierarchy `linkerd -> [linkerd -> [x]]`, all nodes eligible. -/
def treeNested : Command :=
  .mk (plain "linkerd") [.mk (plain "linkerd") [.mk (plain "x") []]]

/-- The hierarchy `linkerd -> [install, check -> [check-config]]`, all nodes eligible. -/
def treeInstallCheck : Command :=
  .mk (plain "linkerd")
    [.mk (plain "install") [], .mk (plain "check") [.mk (plain "check-config") []]]

/-- The hierarchy `linkerd -> [check -> [check-config], install]`, all nodes eligible. -/
def treeCheckInstall : Command :=
  .mk (plain "linkerd")
    [.mk (plain "check") [.mk (plain "check-config") []], .mk (plain "install") []]

/-- The hierarchy `linkerd -> [linkerd]`, both nodes eligible. -/
def treeShadow : Command :=
  .mk (plain "linkerd") [.mk (plain "linkerd") []]

/-- The hierarchy `linkerd -> [install, check]` in which the extraction of `check` fails. -/
def treeFail : Command :=
  .mk (plain "linkerd")
    [.mk (plain "install") [], .mk { plain "check" with genYamlErr := some "boom" } []]

/-- A serializer that always succeeds. -/
def sampleMarshal (_ : references) : Except Error String :=
  .ok "yaml"


/-! ## Notions used to state the pruning and counting properties -/

/-- The normalised name of a node given with the command path of its parent: its command path
passed through line 106. -/
def normalizedName (n : Option String × CommandData) : String :=
  TrimPrefix (CommandPath n.1 n.2) "linkerd "

/-- `Prune t t'`: the hierarchy `t'` results from `t` by deleting, from one node of `t` at any
depth, one child that is unavailable or a help topic, along with everything beneath that
child. -/
inductive Prune : Command → Command → Prop where
  | child (d : CommandData) (pre : List Command) (c : Command) (post : List Command) :
      eligible c = false → Prune (.mk d (pre ++ c :: post)) (.mk d (pre ++ post))
  | inside (d : CommandData) (pre : List Command) (c c' : Command) (post : List Command) :
      Prune c c' → Prune (.mk d (pre ++ c :: post)) (.mk d (pre ++ c' :: post))

mutual
/-- The number of nodes of a hierarchy. -/
def nodeCount : Command → Nat
  | .mk _ commands => nodeCountList commands + 1
/-- The number of nodes of the given subtrees. -/
def nodeCountList : List Command → Nat
  | [] => 0
  | c :: rest => nodeCount c + nodeCountList rest
end

/-! ## Further sample hierarchies -/

/-- The data of the command `check` with a synopsis, a description, an example, one declared
option, one inherited option and one see-also reference. -/
def checkData : CommandData :=
  { Name := "check"
    Short := "Check the installation"
    Long := "Check the installation for potential problems"
    Example := "linkerd check --output json"
    Options := [{ Name := "output", Shorthand := "o", DefaultValue := "table",
                  Usage := "Output format" }]
    InheritedOptions := [{ Name := "verbose", Shorthand := "", DefaultValue := "false",
                           Usage := "Turn on debug logging" }]
    SeeAlso := ["linkerd - linkerd manages the service mesh"]
    IsAvailableCommand := true
    IsAdditionalHelpTopicCommand := false
    genYamlErr := none }

/-- The hierarchy `linkerd -> [check]` in which `check` carries the metadata of `checkData`. -/
def treeMeta : Command :=
  .mk (plain "linkerd") [.mk checkData []]

/-- The hierarchy `linkerd -> [install, A -> [A1]]` in which `A` is unavailable and the
extractions of `A` and of `A1` fail. -/
def treeHiddenFail : Command :=
  .mk (plain "linkerd")
    [.mk (plain "install") [],
     .mk { plain "A" with IsAvailableCommand := false, genYamlErr := some "hidden" }
       [.mk { plain "A1" with genYamlErr := some "deep" } []]]

/-- The hierarchy `linkerd -> [install]`. -/
def treeInstall : Command :=
  .mk (plain "linkerd") [.mk (plain "install") []]

/-- The hierarchy `linkerd -> [topic, check]` in which `topic` is a help topic and the extraction
of `check` fails. -/
def treeTopicFail : Command :=
  .mk (plain "linkerd")
    [.mk { plain "topic" with IsAdditionalHelpTopicCommand := true } [],
     .mk { plain "check" with genYamlErr := some "boom" } []]

/-- The hierarchy `linkerd -> [check]` in which the extraction of `check` fails. -/
def treeCheckFail : Command :=
  .mk (plain "linkerd") [.mk { plain "check" with genYamlErr := some "boom" } []]

/-- The hierarchy `linkerd -> [install]` in which the extraction of the root fails. -/
def treeRootFail : Command :=
  .mk { plain "linkerd" with genYamlErr := some "root" } [.mk (plain "install") []]

/-- The subtree `check -> [check-config]` in which `check` is unavailable and a help topic. -/
def treeHiddenCheck : Command :=
  .mk { plain "check" with IsAvailableCommand := false, IsAdditionalHelpTopicCommand := true }
    [.mk (plain "check-config") []]

/-! ## The order in which the framework lists the children of a node -/

/-- Modelled from the spec: the comparison by which the framework (not part of the repository)
sorts the children of a node, `a.Name() < b.Name()` on strings. -/
def nameLess (a b : Command) : Bool :=
  decide (a.data.Name < b.data.Name)

/-- Insertion of a command into a list that is sorted by name, before the first command whose
name is not smaller. -/
def insertByName (c : Command) : List Command → List Command
  | [] => [c]
  | x :: rest => if nameLess x c then x :: insertByName c rest else c :: x :: rest

/-- Modelled from the spec: what `cmd.Commands()` of the framework (not part of the repository)
yields for the children that were added to a node in the given order. By the framework's
default the children are sorted by name before they are returned, which doc.go does not switch
off; this is the order behind the end-to-end property of the specification, where the children
`install` and `check` give the records `check-config`, `check`, `install`. Children of equal
name keep the order in which they were added. -/
def sortedCommands : List Command → List Command
  | [] => []
  | c :: rest => insertByName c (sortedCommands rest)

mutual
/-- The hierarchy as the walker reads it, for a hierarchy given with the children of every node in
the order in which they were added: every list of children is replaced by what `cmd.Commands()`
yields for it. -/
def listed : Command → Command
  | .mk d commands => .mk d (sortedCommands (listedList commands))
/-- The given subtrees, each as the walker reads it. -/
def listedList : List Command → List Command
  | [] => []
  | c :: rest => listed c :: listedList rest
end

/-! ## Auxiliary lemmas -/

theorem recordsOf_append (xs ys : List (Option String × CommandData)) :
    recordsOf (xs ++ ys) =
      match recordsOf xs with
      | .error err => .error err
      | .ok a =>
        match recordsOf ys with
        | .error err => .error err
        | .ok b => .ok (a ++ b) := by
  induction xs with
  | nil =>
    simp only [List.nil_append, recordsOf]
    cases recordsOf ys <;> simp
  | cons n rest ih =>
    simp only [List.cons_append, recordsOf]
    cases h1 : commandDoc n.1 n.2 with
    | error e => simp
    | ok doc =>
      cases h2 : recordsOf rest with
      | error e => simp [ih, h2]
      | ok a =>
        cases h3 : recordsOf ys with
        | error e => simp [ih, h2, h3]
        | ok b => by_cases h : doc.Name = "linkerd" <;> simp [ih, h2, h3, h]

theorem generateCLIDocs_unfold (parent : Option String) (d : CommandData)
    (commands : List Command) :
    generateCLIDocs parent (.mk d commands) =
      match rangeCommands (some (CommandPath parent d)) commands [] with
      | .error err => .error err
      | .ok cmdList =>
        match commandDoc parent d with
        | .error err => .error err
        | .ok doc => .ok (if doc.Name ≠ "linkerd" then cmdList ++ [doc] else cmdList) := by
  rw [generateCLIDocs]
  unfold commandDoc
  cases h1 : rangeCommands (some (CommandPath parent d)) commands [] with
  | error e => simp
  | ok cmdList =>
    cases h2 : GenYaml parent d with
    | error e => simp
    | ok buf =>
      cases h3 : Unmarshal buf with
      | error e => simp [h3]
      | ok doc =>
        by_cases h : TrimPrefix doc.Name "linkerd " = "linkerd" <;> simp [h3, h]

mutual
theorem generateCLIDocs_eq_recordsOf (parent : Option String) :
    ∀ cmd : Command, generateCLIDocs parent cmd = recordsOf (visited parent cmd)
  | .mk d commands => by
    rw [generateCLIDocs_unfold, visited, recordsOf_append,
      rangeCommands_eq_recordsOf (some (CommandPath parent d)) commands []]
    cases h1 : recordsOf (visitedChildren (some (CommandPath parent d)) commands) with
    | error e => simp
    | ok docs =>
      simp only [recordsOf, List.nil_append]
      cases h2 : commandDoc parent d with
      | error e => simp
      | ok doc => by_cases h : doc.Name = "linkerd" <;> simp [h]
theorem rangeCommands_eq_recordsOf (self : Option String) :
    ∀ (commands : List Command) (cmdList : List cmdDoc),
      rangeCommands self commands cmdList =
        match recordsOf (visitedChildren self commands) with
        | .error err => .error err
        | .ok docs => .ok (cmdList ++ docs)
  | [], cmdList => by simp [rangeCommands, visitedChildren, recordsOf]
  | c :: rest, cmdList => by
    rw [rangeCommands, visitedChildren]
    by_cases h : eligible c = true
    · have h' : (!c.IsAvailableCommand || c.IsAdditionalHelpTopicCommand) = false := by
        simp only [eligible] at h
        revert h
        cases c.IsAvailableCommand <;> cases c.IsAdditionalHelpTopicCommand <;> simp
      simp only [h', h, if_true, Bool.false_eq_true, if_false]
      rw [generateCLIDocs_eq_recordsOf self c, recordsOf_append]
      cases h1 : recordsOf (visited self c) with
      | error e => simp
      | ok subList =>
        simp only
        rw [rangeCommands_eq_recordsOf self rest (cmdList ++ subList)]
        cases h2 : recordsOf (visitedChildren self rest) with
        | error e => simp
        | ok docs => simp
    · have h' : (!c.IsAvailableCommand || c.IsAdditionalHelpTopicCommand) = true := by
        simp only [eligible] at h
        revert h
        cases c.IsAvailableCommand <;> cases c.IsAdditionalHelpTopicCommand <;> simp
      simp only [h', h, if_true, Bool.false_eq_true, if_false]
      exact rangeCommands_eq_recordsOf self rest cmdList
end

theorem unmarshalOption_optionYaml (o : cmdOption) :
    unmarshalOption (optionYaml o) = { o with DefaultValue := "" } := by
  have h1 : EqualFold "name" "Name" = true := by decide
  have h2 : EqualFold "name" "Shorthand" = false := by decide
  have h3 : EqualFold "shorthand" "Shorthand" = true := by decide
  have h4 : EqualFold "name" "DefaultValue" = false := by decide
  have h5 : EqualFold "shorthand" "DefaultValue" = false := by decide
  have h6 : EqualFold "default_value" "DefaultValue" = false := by decide
  have h7 : EqualFold "usage" "DefaultValue" = false := by decide
  have h8 : EqualFold "name" "Usage" = false := by decide
  have h9 : EqualFold "shorthand" "Usage" = false := by decide
  have h10 : EqualFold "default_value" "Usage" = false := by decide
  have h11 : EqualFold "usage" "Usage" = true := by decide
  simp [unmarshalOption, optionYaml, lookupField, h1, h2, h3, h4, h5, h6, h7, h8, h9, h10, h11]

theorem commandDoc_eq (parent : Option String) (d : CommandData) :
    commandDoc parent d =
      match d.genYamlErr with
      | some err => .error err
      | none =>
        .ok { Name := TrimPrefix (CommandPath parent d) "linkerd "
              Synopsis := d.Short
              Description := d.Long
              Options := d.Options.map fun o => { o with DefaultValue := "" }
              InheritedOptions := []
              Example := d.Example
              SeeAlso := [] } := by
  unfold commandDoc GenYaml
  cases d.genYamlErr with
  | some err => rfl
  | none =>
    have k1 : EqualFold "name" "Name" = true := by decide
    have k2 : EqualFold "name" "Synopsis" = false := by decide
    have k3 : EqualFold "synopsis" "Synopsis" = true := by decide
    have k4 : EqualFold "name" "Description" = false := by decide
    have k5 : EqualFold "synopsis" "Description" = false := by decide
    have k6 : EqualFold "description" "Description" = true := by decide
    have k7 : EqualFold "name" "Options" = false := by decide
    have k8 : EqualFold "synopsis" "Options" = false := by decide
    have k9 : EqualFold "description" "Options" = false := by decide
    have k10 : EqualFold "options" "Options" = true := by decide
    have k11 : EqualFold "name" "InheritedOptions" = false := by decide
    have k12 : EqualFold "synopsis" "InheritedOptions" = false := by decide
    have k13 : EqualFold "description" "InheritedOptions" = false := by decide
    have k14 : EqualFold "options" "InheritedOptions" = false := by decide
    have k15 : EqualFold "inherited_options" "InheritedOptions" = false := by decide
    have k16 : EqualFold "example" "InheritedOptions" = false := by decide
    have k17 : EqualFold "see_also" "InheritedOptions" = false := by decide
    have k18 : EqualFold "name" "Example" = false := by decide
    have k19 : EqualFold "synopsis" "Example" = false := by decide
    have k20 : EqualFold "description" "Example" = false := by decide
    have k21 : EqualFold "options" "Example" = false := by decide
    have k22 : EqualFold "inherited_options" "Example" = false := by decide
    have k23 : EqualFold "example" "Example" = true := by decide
    have k24 : EqualFold "name" "SeeAlso" = false := by decide
    have k25 : EqualFold "synopsis" "SeeAlso" = false := by decide
    have k26 : EqualFold "description" "SeeAlso" = false := by decide
    have k27 : EqualFold "options" "SeeAlso" = false := by decide
    have k28 : EqualFold "inherited_options" "SeeAlso" = false := by decide
    have k29 : EqualFold "example" "SeeAlso" = false := by decide
    have k30 : EqualFold "see_also" "SeeAlso" = false := by decide
    have ho : unmarshalOption ∘ optionYaml = fun o => { o with DefaultValue := "" } := by
      funext o
      exact unmarshalOption_optionYaml o
    simp [Unmarshal, stringField, optionsField, stringsField, lookupField, k1, k2, k3, k4, k5,
      k6, k7, k8, k9, k10, k11, k12, k13, k14, k15, k16, k17, k18, k19, k20, k21, k22, k23, k24,
      k25, k26, k27, k28, k29, k30, ho]

theorem commandDoc_name {parent : Option String} {d : CommandData} {doc : cmdDoc}
    (h : commandDoc parent d = .ok doc) :
    doc.Name = TrimPrefix (CommandPath parent d) "linkerd " := by
  rw [commandDoc_eq] at h
  cases hg : d.genYamlErr with
  | some err => simp [hg] at h
  | none =>
    simp only [hg, Except.ok.injEq] at h
    rw [← h]

theorem commandDoc_ok_iff (parent : Option String) (d : CommandData) :
    (∃ doc, commandDoc parent d = .ok doc) ↔ d.genYamlErr = none := by
  rw [commandDoc_eq]
  cases d.genYamlErr <;> simp

/-! ### Facts about `strings.HasPrefix` and `strings.TrimPrefix` -/

theorem HasPrefix_iff (s pre : String) :
    HasPrefix s pre = true ↔ ∃ t, s.data = pre.data ++ t := by
  unfold HasPrefix
  constructor
  · intro h
    simp only [Bool.and_eq_true, decide_eq_true_eq, beq_iff_eq] at h
    refine ⟨s.data.drop pre.data.length, ?_⟩
    conv_lhs => rw [← List.take_append_drop pre.data.length s.data]
    rw [h.2]
  · rintro ⟨t, ht⟩
    simp [ht]

theorem TrimPrefix_of_data (s pre : String) (t : List Char) (h : s.data = pre.data ++ t) :
    TrimPrefix s pre = ⟨t⟩ := by
  have hp : HasPrefix s pre = true := (HasPrefix_iff s pre).2 ⟨t, h⟩
  simp [TrimPrefix, hp, h]

theorem TrimPrefix_of_not (s pre : String) (h : HasPrefix s pre = false) :
    TrimPrefix s pre = s := by
  simp [TrimPrefix, h]

theorem HasPrefix_of_TrimPrefix (s pre : String)
    (h : HasPrefix (TrimPrefix s pre) pre = true) : HasPrefix s (pre ++ pre) = true := by
  cases hp : HasPrefix s pre with
  | false =>
    rw [TrimPrefix_of_not s pre hp, hp] at h
    cases h
  | true =>
    obtain ⟨t, ht⟩ := (HasPrefix_iff s pre).1 hp
    rw [TrimPrefix_of_data s pre t ht] at h
    obtain ⟨u, hu⟩ := (HasPrefix_iff _ pre).1 h
    simp only at hu
    refine (HasPrefix_iff s (pre ++ pre)).2 ⟨u, ?_⟩
    rw [ht, hu, String.data_append, List.append_assoc]

/-! ### Facts about the visited nodes and their records -/

mutual
theorem visited_eq_postorder (parent : Option String) :
    ∀ cmd : Command, allEligible cmd = true → visited parent cmd = postorder parent cmd
  | .mk d commands => by
    intro h
    simp only [allEligible, Bool.and_eq_true] at h
    rw [visited, postorder, visitedChildren_eq_postorderList _ commands h.2]
theorem visitedChildren_eq_postorderList (self : Option String) :
    ∀ commands : List Command, allEligibleList commands = true →
      visitedChildren self commands = postorderList self commands
  | [] => by
    intro _
    rw [visitedChildren, postorderList]
  | c :: rest => by
    intro h
    simp only [allEligibleList, Bool.and_eq_true] at h
    have he : eligible c = true := by
      cases c with
      | mk d cs =>
        have h1 := h.1
        simp only [allEligible, Bool.and_eq_true] at h1
        simp [eligible, Command.IsAvailableCommand, Command.IsAdditionalHelpTopicCommand,
          Command.data, h1.1.1, h1.1.2]
    rw [visitedChildren, postorderList, he, if_pos rfl, visited_eq_postorder self c h.1,
      visitedChildren_eq_postorderList self rest h.2]
end

theorem visitedChildren_filter (self : Option String) (commands : List Command) :
    visitedChildren self (commands.filter eligible) = visitedChildren self commands := by
  induction commands with
  | nil => rfl
  | cons c rest ih =>
    by_cases h : eligible c = true
    · rw [List.filter_cons_of_pos h, visitedChildren, visitedChildren, ih]
    · rw [List.filter_cons_of_neg h, visitedChildren, ih]
      simp [h]

theorem recordsOf_forall₂ (xs : List (Option String × CommandData)) (docs : List cmdDoc)
    (h : List.Forall₂ (fun n doc => commandDoc n.1 n.2 = .ok doc) xs docs) :
    recordsOf xs = .ok (docs.filter fun doc => decide (doc.Name ≠ "linkerd")) := by
  induction h with
  | nil => rfl
  | @cons n doc xs docs hd _ ih =>
    rw [recordsOf, hd]
    simp only [ih]
    by_cases hn : doc.Name = "linkerd" <;> simp [hn]

theorem exists_forall₂_of_ok (xs : List (Option String × CommandData))
    (h : ∀ n ∈ xs, ∃ doc, commandDoc n.1 n.2 = .ok doc) :
    ∃ docs, List.Forall₂ (fun n doc => commandDoc n.1 n.2 = .ok doc) xs docs := by
  induction xs with
  | nil => exact ⟨[], List.Forall₂.nil⟩
  | cons n rest ih =>
    obtain ⟨doc, hdoc⟩ := h n (List.mem_cons_self n rest)
    obtain ⟨docs, hdocs⟩ := ih fun m hm => h m (List.mem_cons_of_mem n hm)
    exact ⟨doc :: docs, List.Forall₂.cons hdoc hdocs⟩

theorem recordsOf_mem_iff (xs : List (Option String × CommandData)) (docs : List cmdDoc)
    (h : recordsOf xs = .ok docs) (doc : cmdDoc) :
    doc ∈ docs ↔ (∃ n ∈ xs, commandDoc n.1 n.2 = .ok doc) ∧ doc.Name ≠ "linkerd" := by
  induction xs generalizing docs with
  | nil =>
    simp only [recordsOf, Except.ok.injEq] at h
    subst h
    simp
  | cons n rest ih =>
    rw [recordsOf] at h
    cases h1 : commandDoc n.1 n.2 with
    | error e => simp [h1] at h
    | ok doc1 =>
      cases h2 : recordsOf rest with
      | error e => simp [h1, h2] at h
      | ok docs2 =>
        simp only [h1, h2, Except.ok.injEq] at h
        subst h
        have ih2 := ih docs2 h2
        by_cases hn : doc1.Name = "linkerd"
        · simp only [hn, ne_eq, not_true_eq_false, if_false, List.mem_cons, exists_eq_or_imp, h1,
            Except.ok.injEq]
          rw [ih2]
          constructor
          · rintro ⟨hex, hne⟩
            exact ⟨Or.inr hex, hne⟩
          · rintro ⟨hex | hex, hne⟩
            · exact absurd (hex ▸ hn) hne
            · exact ⟨hex, hne⟩
        · simp only [hn, ne_eq, not_false_eq_true, if_true, List.mem_cons, exists_eq_or_imp, h1,
            Except.ok.injEq]
          rw [ih2]
          constructor
          · rintro (hd | ⟨hex, hne⟩)
            · subst hd
              exact ⟨Or.inl rfl, hn⟩
            · exact ⟨Or.inr hex, hne⟩
          · rintro ⟨hex | hex, hne⟩
            · exact Or.inl hex.symm
            · exact Or.inr ⟨hex, hne⟩

theorem recordsOf_error (pre post : List (Option String × CommandData))
    (n : Option String × CommandData) (e : Error)
    (hpre : ∀ m ∈ pre, ∃ doc, commandDoc m.1 m.2 = .ok doc)
    (hn : commandDoc n.1 n.2 = .error e) :
    recordsOf (pre ++ n :: post) = .error e := by
  obtain ⟨docs, hdocs⟩ := exists_forall₂_of_ok pre hpre
  rw [recordsOf_append, recordsOf_forall₂ pre docs hdocs]
  simp [recordsOf, hn]

/-! ### The command paths of the visited nodes -/

mutual
theorem visited_parent : ∀ (cmd : Command) (p : String),
    ∀ n ∈ visited (some p) cmd,
      ∃ q t, n.1 = some q ∧ q.data = p.data ++ t ∧ (t = [] ∨ ∃ u, t = ' ' :: u)
  | .mk d commands, p => by
    intro n hn
    rw [visited, List.mem_append, List.mem_singleton] at hn
    cases hn with
    | inl hn =>
      obtain ⟨q, t, h1, h2, _⟩ := visitedChildren_parent commands (CommandPath (some p) d) n hn
      refine ⟨q, ' ' :: (d.Name.data ++ t), h1, ?_, Or.inr ⟨_, rfl⟩⟩
      rw [h2]
      simp [CommandPath]
    | inr hn =>
      subst hn
      exact ⟨p, [], rfl, by simp, Or.inl rfl⟩
theorem visitedChildren_parent : ∀ (commands : List Command) (p : String),
    ∀ n ∈ visitedChildren (some p) commands,
      ∃ q t, n.1 = some q ∧ q.data = p.data ++ t ∧ (t = [] ∨ ∃ u, t = ' ' :: u)
  | [], p => by
    intro n hn
    simp [visitedChildren] at hn
  | c :: rest, p => by
    intro n hn
    rw [visitedChildren] at hn
    by_cases h : eligible c = true
    · rw [if_pos h, List.mem_append] at hn
      cases hn with
      | inl hn => exact visited_parent c p n hn
      | inr hn => exact visitedChildren_parent rest p n hn
    · rw [if_neg h] at hn
      exact visitedChildren_parent rest p n hn
end

theorem trimmed_eq_linkerd_iff (q : String) (t : List Char) (d : CommandData)
    (hq : q.data = "linkerd".data ++ t) (ht : t = [] ∨ ∃ u, t = ' ' :: u) :
    TrimPrefix (CommandPath (some q) d) "linkerd " = "linkerd" ↔
      q = "linkerd" ∧ d.Name = "linkerd" := by
  rcases ht with ht | ⟨u, ht⟩
  · subst ht
    have hq' : q = "linkerd" := String.ext (by simpa using hq)
    have hpath : (CommandPath (some q) d).data = "linkerd ".data ++ d.Name.data := by
      simp [CommandPath, String.data_append, hq]
    rw [TrimPrefix_of_data _ _ _ hpath]
    simp [hq']
  · subst ht
    have hpath : (CommandPath (some q) d).data =
        "linkerd ".data ++ (u ++ ' ' :: d.Name.data) := by
      simp [CommandPath, String.data_append, hq]
    rw [TrimPrefix_of_data _ _ _ hpath]
    constructor
    · intro h
      exfalso
      have h2 : u ++ ' ' :: d.Name.data = "linkerd".data := congrArg String.data h
      have h3 : ' ' ∈ "linkerd".data := by
        rw [← h2]
        simp
      revert h3
      decide
    · rintro ⟨h, _⟩
      exfalso
      rw [h] at hq
      have := congrArg List.length hq
      simp at this

/-! ## The properties of `generateCLIDocs` -/

/-- C1: in a hierarchy whose nodes are all eligible and whose extractions all succeed,
`generateCLIDocs` returns the records of the nodes in post-order (the descendants of a node
before the node, the subtrees of siblings in the order of the children), without the records
named `"linkerd"`; for `linkerd -> [A -> [A1, A2], B]` the result is exactly the records of
`A1`, `A2`, `A`, `B`. -/
theorem generateCLIDocs_postorder :
    (∀ (parent : Option String) (cmd : Command), allEligible cmd = true →
      (∀ n ∈ postorder parent cmd, ∃ doc, commandDoc n.1 n.2 = .ok doc) →
      ∃ docs, List.Forall₂ (fun n doc => commandDoc n.1 n.2 = .ok doc)
          (postorder parent cmd) docs ∧
        generateCLIDocs parent cmd =
          .ok (docs.filter fun doc => decide (doc.Name ≠ "linkerd"))) ∧
    (∃ a1 a2 a b,
      commandDoc (some "linkerd A") (plain "A1") = .ok a1 ∧
      commandDoc (some "linkerd A") (plain "A2") = .ok a2 ∧
      commandDoc (some "linkerd") (plain "A") = .ok a ∧
      commandDoc (some "linkerd") (plain "B") = .ok b ∧
      generateCLIDocs none treeAB = .ok [a1, a2, a, b]) := by
  refine ⟨?_, docNamed "A A1", docNamed "A A2", docNamed "A", docNamed "B",
    rfl, rfl, rfl, rfl, rfl⟩
  intro parent cmd hel hok
  obtain ⟨docs, hdocs⟩ := exists_forall₂_of_ok _ hok
  refine ⟨docs, hdocs, ?_⟩
  rw [generateCLIDocs_eq_recordsOf, visited_eq_postorder parent cmd hel]
  exact recordsOf_forall₂ _ docs hdocs

/-- Witness of C1 on `linkerd -> [A -> [A1, A2], B]`. -/
theorem generateCLIDocs_postorder_witness :
    allEligible treeAB = true ∧
    (∀ n ∈ postorder none treeAB, ∃ doc, commandDoc n.1 n.2 = .ok doc) ∧
    ∃ docs, List.Forall₂ (fun n doc => commandDoc n.1 n.2 = .ok doc)
        (postorder none treeAB) docs ∧
      generateCLIDocs none treeAB = .ok (docs.filter fun doc => decide (doc.Name ≠ "linkerd")) :=
  have hok : ∀ n ∈ postorder none treeAB, ∃ doc, commandDoc n.1 n.2 = .ok doc := by
    intro n hn
    rw [commandDoc_ok_iff]
    revert n
    decide
  ⟨rfl, hok, generateCLIDocs_postorder.1 none treeAB rfl hok⟩

/-- Counterexample to C2: in `linkerd -> [A -> [A1]]` with `A` unavailable, the eligible node `A1`
has a record of its own, yet the result is the empty list and not the list of that record. -/
theorem unavailable_parent_hides_descendants :
    eligible (.mk (plain "A1") []) = true ∧
    commandDoc (some "linkerd A") (plain "A1") = .ok (docNamed "A A1") ∧
    generateCLIDocs none treeHidden = .ok [] ∧
    generateCLIDocs none treeHidden ≠ .ok [docNamed "A A1"] := by
  refine ⟨rfl, rfl, rfl, ?_⟩
  intro h
  have h2 : generateCLIDocs none treeHidden = .ok [] := rfl
  rw [h2] at h
  cases h

/-- C2, amended: a child that is unavailable or a help topic produces no record and neither does
any node beneath it: the result is the same as for the node whose ineligible children are
removed with their subtrees; for `linkerd -> [A -> [A1]]` with `A` unavailable the result is the
empty list. -/
theorem generateCLIDocs_skips_ineligible_subtrees :
    (∀ (parent : Option String) (d : CommandData) (commands : List Command),
      generateCLIDocs parent (.mk d commands) =
        generateCLIDocs parent (.mk d (commands.filter eligible))) ∧
    generateCLIDocs none treeHidden = .ok [] := by
  refine ⟨?_, rfl⟩
  intro parent d commands
  rw [generateCLIDocs_eq_recordsOf, generateCLIDocs_eq_recordsOf, visited, visited,
    visitedChildren_filter]

/-- C3: no record returned by `generateCLIDocs` is named `"linkerd"`, whatever the hierarchy. -/
theorem generateCLIDocs_no_root_name (parent : Option String) (cmd : Command)
    (docs : List cmdDoc) (h : generateCLIDocs parent cmd = .ok docs) :
    ∀ doc ∈ docs, doc.Name ≠ "linkerd" := by
  intro doc hdoc
  rw [generateCLIDocs_eq_recordsOf] at h
  exact ((recordsOf_mem_iff _ docs h doc).1 hdoc).2

/-- Witness of C3 on `linkerd -> [linkerd -> [x]]`. -/
theorem generateCLIDocs_no_root_name_witness :
    generateCLIDocs none treeNested = .ok [docNamed "linkerd x"] ∧
    ∀ doc ∈ [docNamed "linkerd x"], doc.Name ≠ "linkerd" :=
  ⟨rfl, generateCLIDocs_no_root_name none treeNested [docNamed "linkerd x"] rfl⟩

/-- Counterexample to C4: in `linkerd -> [linkerd -> [x]]` the eligible node `x` has the command
path `linkerd linkerd x`, and the name of its record, `linkerd x`, begins with `"linkerd "`. -/
theorem nested_linkerd_keeps_prefix :
    eligible (.mk (plain "x") []) = true ∧
    CommandPath (some "linkerd linkerd") (plain "x") = "linkerd linkerd x" ∧
    generateCLIDocs none treeNested = .ok [docNamed "linkerd x"] ∧
    HasPrefix (docNamed "linkerd x").Name "linkerd " = true := by
  refine ⟨rfl, by decide, rfl, by decide⟩

/-- C4, amended: the name of every record returned is the command path of its node with one
leading `"linkerd "` removed, and it does not begin with `"linkerd "` unless the command path
begins with `"linkerd linkerd "`. -/
theorem generateCLIDocs_name_trimmed_once (parent : Option String) (cmd : Command)
    (docs : List cmdDoc) (h : generateCLIDocs parent cmd = .ok docs) :
    ∀ doc ∈ docs, ∃ n ∈ visited parent cmd, commandDoc n.1 n.2 = .ok doc ∧
      doc.Name = TrimPrefix (CommandPath n.1 n.2) "linkerd " ∧
      (HasPrefix (CommandPath n.1 n.2) "linkerd linkerd " = false →
        HasPrefix doc.Name "linkerd " = false) := by
  intro doc hdoc
  rw [generateCLIDocs_eq_recordsOf] at h
  obtain ⟨⟨n, hn, hdocn⟩, _⟩ := (recordsOf_mem_iff _ docs h doc).1 hdoc
  have hname := commandDoc_name hdocn
  refine ⟨n, hn, hdocn, hname, ?_⟩
  intro hnot
  cases hp : HasPrefix doc.Name "linkerd " with
  | false => rfl
  | true =>
    rw [hname] at hp
    have h2 := HasPrefix_of_TrimPrefix _ _ hp
    have h3 : ("linkerd " ++ "linkerd " : String) = "linkerd linkerd " := by decide
    rw [h3, hnot] at h2
    cases h2

/-- Witness of C4, amended, on `linkerd -> [install, check -> [check-config]]`. -/
theorem generateCLIDocs_name_trimmed_once_witness :
    generateCLIDocs none treeInstallCheck =
      .ok [docNamed "install", docNamed "check check-config", docNamed "check"] ∧
    ∀ doc ∈ [docNamed "install", docNamed "check check-config", docNamed "check"],
      ∃ n ∈ visited none treeInstallCheck, commandDoc n.1 n.2 = .ok doc ∧
        doc.Name = TrimPrefix (CommandPath n.1 n.2) "linkerd " ∧
        (HasPrefix (CommandPath n.1 n.2) "linkerd linkerd " = false →
          HasPrefix doc.Name "linkerd " = false) :=
  ⟨rfl, generateCLIDocs_name_trimmed_once none treeInstallCheck _ rfl⟩

/-- C5: when the extraction of a node the walker processes fails, `generateCLIDocs` returns an
error and no records; the error is that of the first processed node whose extraction fails,
whatever was collected before it. -/
theorem generateCLIDocs_error_discards (parent : Option String) (cmd : Command) :
    (∀ (pre post : List (Option String × CommandData)) (n : Option String × CommandData)
        (e : Error), visited parent cmd = pre ++ n :: post →
      (∀ m ∈ pre, ∃ doc, commandDoc m.1 m.2 = .ok doc) →
      commandDoc n.1 n.2 = .error e → generateCLIDocs parent cmd = .error e) ∧
    ((∃ n ∈ visited parent cmd, ∃ e, commandDoc n.1 n.2 = .error e) →
      ∃ e, generateCLIDocs parent cmd = .error e) := by
  constructor
  · intro pre post n e hv hpre hn
    rw [generateCLIDocs_eq_recordsOf, hv]
    exact recordsOf_error pre post n e hpre hn
  · rintro ⟨n, hn, e, he⟩
    rw [generateCLIDocs_eq_recordsOf]
    cases hr : recordsOf (visited parent cmd) with
    | error e' => exact ⟨e', rfl⟩
    | ok docs =>
      exfalso
      generalize visited parent cmd = xs at hn hr
      induction xs generalizing docs with
      | nil => cases hn
      | cons m rest ih =>
        rw [recordsOf] at hr
        cases h1 : commandDoc m.1 m.2 with
        | error e1 => simp [h1] at hr
        | ok doc1 =>
          cases h2 : recordsOf rest with
          | error e2 => simp [h1, h2] at hr
          | ok docs2 =>
            rcases List.mem_cons.1 hn with hm | hm
            · subst hm
              rw [he] at h1
              cases h1
            · exact ih docs2 hm h2

/-- Witness of C5 on `linkerd -> [install, check]` where the extraction of `check` fails after
the record of `install` was collected. -/
theorem generateCLIDocs_error_discards_witness :
    visited none treeFail =
      [(some "linkerd", plain "install")] ++
        (some "linkerd", { plain "check" with genYamlErr := some "boom" }) ::
          [(none, plain "linkerd")] ∧
    commandDoc (some "linkerd") (plain "install") = .ok (docNamed "install") ∧
    commandDoc (some "linkerd") { plain "check" with genYamlErr := some "boom" } =
      .error "boom" ∧
    generateCLIDocs none treeFail = .error "boom" :=
  ⟨rfl, rfl, rfl,
    (generateCLIDocs_error_discards none treeFail).1 [(some "linkerd", plain "install")]
      [(none, plain "linkerd")]
      (some "linkerd", { plain "check" with genYamlErr := some "boom" }) "boom" rfl
      (by
        intro m hm
        rw [List.mem_singleton] at hm
        subst hm
        exact ⟨docNamed "install", rfl⟩)
      rfl⟩

/-- C6: for the hierarchy with root `linkerd` whose children are `install` and `check`, where
`check` has the single child `check-config` and all nodes are eligible, `generateCLIDocs` returns
exactly three records, those of `check-config`, `check` and `install` in this order, whichever of
the two children was added first (`cmd.Commands()` lists `check` before `install`), and none of
the three names begins with `"linkerd "`. -/
theorem generateCLIDocs_check_config_check_install :
    allEligible treeInstallCheck = true ∧ allEligible treeCheckInstall = true ∧
    listed treeInstallCheck = treeCheckInstall ∧ listed treeCheckInstall = treeCheckInstall ∧
    generateCLIDocs none (listed treeInstallCheck) =
      .ok [docNamed "check check-config", docNamed "check", docNamed "install"] ∧
    generateCLIDocs none (listed treeCheckInstall) =
      .ok [docNamed "check check-config", docNamed "check", docNamed "install"] ∧
    commandDoc (some "linkerd check") (plain "check-config") =
      .ok (docNamed "check check-config") ∧
    commandDoc (some "linkerd") (plain "check") = .ok (docNamed "check") ∧
    commandDoc (some "linkerd") (plain "install") = .ok (docNamed "install") ∧
    [docNamed "check check-config", docNamed "check", docNamed "install"].length = 3 ∧
    HasPrefix (docNamed "check check-config").Name "linkerd " = false ∧
    HasPrefix (docNamed "check").Name "linkerd " = false ∧
    HasPrefix (docNamed "install").Name "linkerd " = false := by
  have h1 : listed treeInstallCheck = treeCheckInstall := by
    simp [listed, listedList, sortedCommands, insertByName, nameLess, treeInstallCheck,
      treeCheckInstall, Command.data, plain]
    decide
  have h2 : listed treeCheckInstall = treeCheckInstall := by
    simp [listed, listedList, sortedCommands, insertByName, nameLess, treeCheckInstall,
      Command.data, plain]
    decide
  refine ⟨rfl, rfl, h1, h2, ?_, ?_, rfl, rfl, rfl, rfl, by decide, by decide, by decide⟩
  · rw [h1]
    rfl
  · rw [h2]
    rfl

/-- Counterexample to C7: in `linkerd -> [linkerd]` the child is eligible, is not the root, is
processed by the walker and its extraction succeeds, yet it contributes no record. -/
theorem child_named_linkerd_discarded :
    eligible (.mk (plain "linkerd") []) = true ∧
    (some "linkerd", plain "linkerd") ∈ visited none treeShadow ∧
    commandDoc (some "linkerd") (plain "linkerd") = .ok (docNamed "linkerd") ∧
    generateCLIDocs none treeShadow = .ok [] := by
  refine ⟨rfl, ?_, rfl, rfl⟩
  have h : visited none treeShadow =
      [(some "linkerd", plain "linkerd"), (none, plain "linkerd")] := rfl
  rw [h]
  exact List.mem_cons_self _ _

/-- C7, amended: the root-exclusion step discards a record exactly when its normalised name is
`"linkerd"`. For every hierarchy with root `linkerd` on which the walk succeeds, the root
contributes no record, and a non-root node that the walker processes contributes its record
unless it is a child of the root that is itself named `linkerd`. -/
theorem generateCLIDocs_root_exclusion (d : CommandData) (commands : List Command)
    (docs : List cmdDoc) (hroot : d.Name = "linkerd")
    (h : generateCLIDocs none (.mk d commands) = .ok docs) :
    (∀ doc, commandDoc none d = .ok doc → doc ∉ docs) ∧
    (∀ n ∈ visitedChildren (some "linkerd") commands, ∀ doc, commandDoc n.1 n.2 = .ok doc →
      (doc ∈ docs ↔ ¬ (n.1 = some "linkerd" ∧ n.2.Name = "linkerd"))) := by
  rw [generateCLIDocs_eq_recordsOf] at h
  have hv : visited none (.mk d commands) =
      visitedChildren (some "linkerd") commands ++ [(none, d)] := by
    rw [visited]
    simp [CommandPath, hroot]
  constructor
  · intro doc hdoc hmem
    have hname := commandDoc_name hdoc
    have htrim : TrimPrefix (CommandPath none d) "linkerd " = "linkerd" := by
      simp only [CommandPath, hroot]
      decide
    exact ((recordsOf_mem_iff _ docs h doc).1 hmem).2 (hname.trans htrim)
  · intro n hn doc hdoc
    have hname := commandDoc_name hdoc
    obtain ⟨q, t, hq, hqt, ht⟩ := visitedChildren_parent commands "linkerd" n hn
    have hiff := trimmed_eq_linkerd_iff q t n.2 hqt ht
    have hpath : CommandPath n.1 n.2 = CommandPath (some q) n.2 := by rw [hq]
    rw [recordsOf_mem_iff _ docs h doc, hname, hpath]
    constructor
    · rintro ⟨_, hne⟩ ⟨h1, h2⟩
      rw [hq] at h1
      exact hne (hiff.2 ⟨Option.some.inj h1, h2⟩)
    · intro hne
      refine ⟨⟨n, ?_, hdoc⟩, ?_⟩
      · rw [hv]
        exact List.mem_append_left _ hn
      · intro heq
        obtain ⟨h1, h2⟩ := hiff.1 heq
        exact hne ⟨by rw [hq, h1], h2⟩

/-- Witness of C7, amended, on `linkerd -> [install, check -> [check-config]]`. -/
theorem generateCLIDocs_root_exclusion_witness :
    (plain "linkerd").Name = "linkerd" ∧
    generateCLIDocs none treeInstallCheck =
      .ok [docNamed "install", docNamed "check check-config", docNamed "check"] ∧
    (∀ doc, commandDoc none (plain "linkerd") = .ok doc →
      doc ∉ [docNamed "install", docNamed "check check-config", docNamed "check"]) ∧
    (∀ n ∈ visitedChildren (some "linkerd")
        [.mk (plain "install") [], .mk (plain "check") [.mk (plain "check-config") []]],
      ∀ doc, commandDoc n.1 n.2 = .ok doc →
        (doc ∈ [docNamed "install", docNamed "check check-config", docNamed "check"] ↔
          ¬ (n.1 = some "linkerd" ∧ n.2.Name = "linkerd"))) :=
  ⟨rfl, rfl,
    generateCLIDocs_root_exclusion (plain "linkerd")
      [.mk (plain "install") [], .mk (plain "check") [.mk (plain "check-config") []]]
      [docNamed "install", docNamed "check check-config", docNamed "check"] rfl rfl⟩

/-! ## The properties of the catalog and of the assembler -/

/-- C8: `generateAnnotationsDocs` is a total function of no input besides the externally defined
annotation keys: it returns a sequence of exactly 29 entries, the first being the proxy-inject
annotation and the last the await-proxy annotation. -/
theorem generateAnnotationsDocs_catalog (k : k8s) :
    (generateAnnotationsDocs k).length = 29 ∧
    (generateAnnotationsDocs k).head? =
      some { Name := k8s.ProxyInjectAnnotation k,
             Description := "Controls whether or not a pod should be injected; accepted values are `enabled`, `disabled` and `ingress`" } ∧
    (generateAnnotationsDocs k).getLast? =
      some { Name := k8s.AwaitProxy k,
             Description := "The application container will not start until the proxy is ready" } :=
  ⟨rfl, rfl, rfl⟩

/-- C9: for a hierarchy that consists of the root `linkerd` alone, whose extraction succeeds,
the assembled `references` value has an empty `CLIReference` and the full catalog as
`AnnotationsReference`, and this is the value that is serialized and printed. -/
theorem newCmdDoc_root_only (k : k8s) (Marshal : references → Except Error String)
    (d : CommandData) (hroot : d.Name = "linkerd") (hok : d.genYamlErr = none) :
    newCmdDoc_references k (.mk d []) =
      .ok { CLIReference := [], AnnotationsReference := generateAnnotationsDocs k } ∧
    newCmdDoc_RunE k Marshal (.mk d []) =
      match Marshal { CLIReference := [], AnnotationsReference := generateAnnotationsDocs k } with
      | .error err => ("", some err)
      | .ok out => (warn ++ "\n\n" ++ out ++ "\n", none) := by
  have htrim : TrimPrefix (CommandPath none d) "linkerd " = "linkerd" := by
    simp only [CommandPath, hroot]
    decide
  have hgen : generateCLIDocs none (.mk d []) = .ok [] := by
    rw [generateCLIDocs_unfold, rangeCommands, commandDoc_eq, hok]
    simp [htrim]
  have href : newCmdDoc_references k (.mk d []) =
      .ok { CLIReference := [], AnnotationsReference := generateAnnotationsDocs k } := by
    simp [newCmdDoc_references, hgen]
  refine ⟨href, ?_⟩
  rw [newCmdDoc_RunE, href]

/-- Witness of C9 on the root `linkerd` without metadata. -/
theorem newCmdDoc_root_only_witness :
    (plain "linkerd").Name = "linkerd" ∧ (plain "linkerd").genYamlErr = none ∧
    newCmdDoc_references default (.mk (plain "linkerd") []) =
      .ok { CLIReference := [], AnnotationsReference := generateAnnotationsDocs default } ∧
    newCmdDoc_RunE default sampleMarshal (.mk (plain "linkerd") []) =
      (warn ++ "\n\n" ++ "yaml" ++ "\n", none) :=
  ⟨rfl, rfl, newCmdDoc_root_only default sampleMarshal (plain "linkerd") rfl rfl⟩

/-- C10: when `generateCLIDocs` fails, `RunE` returns its error unchanged and writes nothing;
when it succeeds, the assembled `references` value has its result as `CLIReference` and the
catalog as `AnnotationsReference`, and `RunE` prints the warning line followed by the
serialization of that value. -/
theorem RunE_all_or_nothing (k : k8s) (Marshal : references → Except Error String)
    (RootCmd : Command) :
    (∀ e, generateCLIDocs none RootCmd = .error e →
      newCmdDoc_references k RootCmd = .error e ∧
      newCmdDoc_RunE k Marshal RootCmd = ("", some e)) ∧
    (∀ docs, generateCLIDocs none RootCmd = .ok docs →
      newCmdDoc_references k RootCmd =
        .ok { CLIReference := docs, AnnotationsReference := generateAnnotationsDocs k } ∧
      newCmdDoc_RunE k Marshal RootCmd =
        match Marshal { CLIReference := docs,
                        AnnotationsReference := generateAnnotationsDocs k } with
        | .error err => ("", some err)
        | .ok out => (warn ++ "\n\n" ++ out ++ "\n", none)) := by
  constructor
  · intro e he
    have href : newCmdDoc_references k RootCmd = .error e := by
      simp [newCmdDoc_references, he]
    exact ⟨href, by rw [newCmdDoc_RunE, href]⟩
  · intro docs hdocs
    have href : newCmdDoc_references k RootCmd =
        .ok { CLIReference := docs, AnnotationsReference := generateAnnotationsDocs k } := by
      simp [newCmdDoc_references, hdocs]
    exact ⟨href, by rw [newCmdDoc_RunE, href]⟩

/-- Witness of C10: the failing hierarchy `linkerd -> [install, check]` prints nothing, and the
hierarchy `linkerd -> [install, check -> [check-config]]` is assembled from the three records. -/
theorem RunE_all_or_nothing_witness :
    (generateCLIDocs none treeFail = .error "boom" ∧
      newCmdDoc_references default treeFail = .error "boom" ∧
      newCmdDoc_RunE default sampleMarshal treeFail = ("", some "boom")) ∧
    (generateCLIDocs none treeInstallCheck =
        .ok [docNamed "install", docNamed "check check-config", docNamed "check"] ∧
      newCmdDoc_references default treeInstallCheck =
        .ok { CLIReference :=
                [docNamed "install", docNamed "check check-config", docNamed "check"],
              AnnotationsReference := generateAnnotationsDocs default } ∧
      newCmdDoc_RunE default sampleMarshal treeInstallCheck =
        (warn ++ "\n\n" ++ "yaml" ++ "\n", none)) :=
  ⟨⟨rfl, (RunE_all_or_nothing default sampleMarshal treeFail).1 "boom" rfl⟩,
    ⟨rfl, (RunE_all_or_nothing default sampleMarshal treeInstallCheck).2
      [docNamed "install", docNamed "check check-config", docNamed "check"] rfl⟩⟩


/-! ### Further facts about the visited nodes and their records -/

theorem visitedChildren_append (self : Option String) (xs ys : List Command) :
    visitedChildren self (xs ++ ys) = visitedChildren self xs ++ visitedChildren self ys := by
  induction xs with
  | nil => simp [visitedChildren]
  | cons c rest ih =>
    rw [List.cons_append, visitedChildren, visitedChildren, ih]
    by_cases h : eligible c = true <;> simp [h]

theorem eligible_mk (d : CommandData) (cs cs' : List Command) :
    eligible (.mk d cs) = eligible (.mk d cs') := rfl

theorem Prune_visited {t t' : Command} (h : Prune t t') :
    t'.data = t.data ∧ ∀ parent, visited parent t' = visited parent t := by
  induction h with
  | child d pre c post hc =>
    refine ⟨rfl, fun parent => ?_⟩
    rw [visited, visited, visitedChildren_append, visitedChildren_append, visitedChildren]
    simp [hc]
  | inside d pre c c' post _ ih =>
    refine ⟨rfl, fun parent => ?_⟩
    have hel : eligible c' = eligible c := by
      cases c with
      | mk dc csc =>
        cases c' with
        | mk dc' csc' =>
          have h1 : dc' = dc := ih.1
          subst h1
          rfl
    rw [visited, visited, visitedChildren_append, visitedChildren_append, visitedChildren,
      visitedChildren, hel, ih.2]

theorem recordsOf_ok_iff (xs : List (Option String × CommandData)) :
    (∃ docs, recordsOf xs = .ok docs) ↔ ∀ n ∈ xs, ∃ doc, commandDoc n.1 n.2 = .ok doc := by
  induction xs with
  | nil => simp [recordsOf]
  | cons n rest ih =>
    rw [recordsOf]
    cases h1 : commandDoc n.1 n.2 with
    | error e => simp [h1]
    | ok doc =>
      cases h2 : recordsOf rest with
      | error e =>
        have h3 : ¬ ∀ m ∈ rest, ∃ doc, commandDoc m.1 m.2 = .ok doc := by
          intro hall
          obtain ⟨docs, hdocs⟩ := ih.2 hall
          rw [h2] at hdocs
          cases hdocs
        simp only [List.mem_cons, forall_eq_or_imp, h1]
        constructor
        · rintro ⟨docs, hdocs⟩
          cases hdocs
        · rintro ⟨_, hall⟩
          exact absurd hall h3
      | ok docs =>
        have h3 : ∀ m ∈ rest, ∃ doc, commandDoc m.1 m.2 = .ok doc := ih.1 ⟨docs, h2⟩
        simp only [List.mem_cons, forall_eq_or_imp, h1]
        constructor
        · intro _
          exact ⟨⟨doc, rfl⟩, h3⟩
        · intro _
          exact ⟨_, rfl⟩

theorem recordsOf_length (xs : List (Option String × CommandData)) (docs : List cmdDoc)
    (h : recordsOf xs = .ok docs) :
    docs.length = (xs.filter fun n => decide (normalizedName n ≠ "linkerd")).length := by
  induction xs generalizing docs with
  | nil =>
    simp only [recordsOf, Except.ok.injEq] at h
    subst h
    rfl
  | cons n rest ih =>
    rw [recordsOf] at h
    cases h1 : commandDoc n.1 n.2 with
    | error e => simp [h1] at h
    | ok doc =>
      cases h2 : recordsOf rest with
      | error e => simp [h1, h2] at h
      | ok docs2 =>
        simp only [h1, h2, Except.ok.injEq] at h
        subst h
        have hname : doc.Name = normalizedName n := commandDoc_name h1
        have ih2 := ih docs2 h2
        by_cases hn : normalizedName n = "linkerd"
        · simp [hname, hn, ih2, List.filter_cons]
        · simp [hname, hn, ih2, List.filter_cons]

mutual
theorem visited_length_le (parent : Option String) :
    ∀ cmd : Command, (visited parent cmd).length ≤ nodeCount cmd
  | .mk d commands => by
    rw [visited, nodeCount, List.length_append, List.length_singleton]
    exact Nat.add_le_add_right (visitedChildren_length_le _ commands) 1
theorem visitedChildren_length_le (self : Option String) :
    ∀ commands : List Command, (visitedChildren self commands).length ≤ nodeCountList commands
  | [] => by simp [visitedChildren, nodeCountList]
  | c :: rest => by
    rw [visitedChildren, nodeCountList]
    have h1 := visited_length_le self c
    have h2 := visitedChildren_length_le self rest
    by_cases h : eligible c = true
    · rw [if_pos h, List.length_append]
      omega
    · rw [if_neg h]
      omega
end

theorem recordsOf_getLast (xs : List (Option String × CommandData))
    (n : Option String × CommandData) (docs : List cmdDoc) (doc : cmdDoc)
    (h : recordsOf (xs ++ [n]) = .ok docs) (hdoc : commandDoc n.1 n.2 = .ok doc)
    (hname : doc.Name ≠ "linkerd") : docs.getLast? = some doc := by
  rw [recordsOf_append] at h
  cases h1 : recordsOf xs with
  | error e => simp [h1] at h
  | ok a =>
    simp only [h1, recordsOf, hdoc, hname, ne_eq, not_false_eq_true, if_true,
      Except.ok.injEq] at h
    subst h
    simp

theorem recordsOf_filter (xs : List (Option String × CommandData)) (docs : List cmdDoc)
    (h : recordsOf xs = .ok docs) :
    ∃ recs, List.Forall₂ (fun n doc => commandDoc n.1 n.2 = .ok doc) xs recs ∧
      docs = recs.filter fun doc => decide (doc.Name ≠ "linkerd") := by
  obtain ⟨recs, hrecs⟩ := exists_forall₂_of_ok xs ((recordsOf_ok_iff xs).1 ⟨docs, h⟩)
  refine ⟨recs, hrecs, ?_⟩
  have h2 := recordsOf_forall₂ xs recs hrecs
  rw [h] at h2
  exact Except.ok.inj h2

theorem commandDoc_flags (parent : Option String) (d : CommandData) (a h : Bool) :
    commandDoc parent { d with IsAvailableCommand := a, IsAdditionalHelpTopicCommand := h } =
      commandDoc parent d := by
  cases parent <;> rfl

theorem CommandPath_flags (parent : Option String) (d : CommandData) (a h : Bool) :
    CommandPath parent { d with IsAvailableCommand := a, IsAdditionalHelpTopicCommand := h } =
      CommandPath parent d := by
  cases parent <;> rfl

/-! ## Further properties of `generateCLIDocs` -/

/-- C11: the normalisation of line 106, `strings.TrimPrefix(name, "linkerd ")`, is a total
function that removes one leading `"linkerd "` and is the identity on every name that does not
start with it, the bare `"linkerd"` and the empty name included; it is the step applied to the
command path of every node whose record is built. -/
theorem TrimPrefix_linkerd :
    (∀ s : String, TrimPrefix ("linkerd " ++ s) "linkerd " = s) ∧
    (∀ n : String, (∀ t : String, n ≠ "linkerd " ++ t) → TrimPrefix n "linkerd " = n) ∧
    TrimPrefix "linkerd" "linkerd " = "linkerd" ∧
    TrimPrefix "" "linkerd " = "" ∧
    (∀ (parent : Option String) (d : CommandData) (doc : cmdDoc),
      commandDoc parent d = .ok doc → doc.Name = TrimPrefix (CommandPath parent d) "linkerd ") := by
  refine ⟨?_, ?_, by decide, by decide, fun parent d doc h => commandDoc_name h⟩
  · intro s
    exact TrimPrefix_of_data _ _ s.data (String.data_append _ _)
  · intro n hn
    cases hp : HasPrefix n "linkerd " with
    | false => exact TrimPrefix_of_not n _ hp
    | true =>
      obtain ⟨t, ht⟩ := (HasPrefix_iff n "linkerd ").1 hp
      exact absurd (String.ext (by rw [ht, String.data_append])) (hn ⟨t⟩)

/-- Witness of C11 on the names `"linkerd linkerd x"` and `"install"`. -/
theorem TrimPrefix_linkerd_witness :
    TrimPrefix ("linkerd " ++ "linkerd x") "linkerd " = "linkerd x" ∧
    (∀ t : String, "install" ≠ "linkerd " ++ t) ∧
    TrimPrefix "install" "linkerd " = "install" :=
  have hn : ∀ t : String, "install" ≠ "linkerd " ++ t := by
    intro t h
    have h2 := congrArg String.data h
    simp at h2
  ⟨TrimPrefix_linkerd.1 "linkerd x", hn, TrimPrefix_linkerd.2.1 "install" hn⟩

/-- C12, evaluated on `linkerd -> [check]` where `check` has a declared option with the default
value `table`, an inherited option and a see-also reference: the record keeps the synopsis, the
description, the example and the name, shorthand and usage of the declared option, but its
`InheritedOptions` and `SeeAlso` are empty and the `DefaultValue` of the option is empty. -/
theorem inherited_options_and_see_also_lost :
    checkData.InheritedOptions ≠ [] ∧ checkData.SeeAlso ≠ [] ∧
    checkData.Options.map (fun o => o.DefaultValue) = ["table"] ∧
    generateCLIDocs none treeMeta =
      .ok [{ Name := "check"
             Synopsis := "Check the installation"
             Description := "Check the installation for potential problems"
             Options := [{ Name := "output", Shorthand := "o", DefaultValue := "",
                           Usage := "Output format" }]
             InheritedOptions := []
             Example := "linkerd check --output json"
             SeeAlso := [] }] := by
  refine ⟨by decide, by decide, rfl, rfl⟩

/-- C13: deleting, from any node of a hierarchy, a child that is unavailable or a help topic,
along with everything beneath it, leaves the result of `generateCLIDocs` unchanged, be it a list
of records or an error. -/
theorem generateCLIDocs_prune (t t' : Command) (h : Prune t t') (parent : Option String) :
    generateCLIDocs parent t = generateCLIDocs parent t' := by
  rw [generateCLIDocs_eq_recordsOf, generateCLIDocs_eq_recordsOf, (Prune_visited h).2]

/-- Witness of C13: deleting the unavailable `A` (whose subtree fails to extract) from
`linkerd -> [install, A -> [A1]]` keeps the result `[install]`, and deleting the help topic from
`linkerd -> [topic, check]` keeps the error of `check`. -/
theorem generateCLIDocs_prune_witness :
    (Prune treeHiddenFail treeInstall ∧
      generateCLIDocs none treeHiddenFail = generateCLIDocs none treeInstall ∧
      generateCLIDocs none treeInstall = .ok [docNamed "install"]) ∧
    (Prune treeTopicFail treeCheckFail ∧
      generateCLIDocs none treeTopicFail = generateCLIDocs none treeCheckFail ∧
      generateCLIDocs none treeCheckFail = .error "boom") :=
  have h1 : Prune treeHiddenFail treeInstall :=
    Prune.child (plain "linkerd") [.mk (plain "install") []]
      (.mk { plain "A" with IsAvailableCommand := false, genYamlErr := some "hidden" }
        [.mk { plain "A1" with genYamlErr := some "deep" } []]) [] rfl
  have h2 : Prune treeTopicFail treeCheckFail :=
    Prune.child (plain "linkerd") []
      (.mk { plain "topic" with IsAdditionalHelpTopicCommand := true } [])
      [.mk { plain "check" with genYamlErr := some "boom" } []] rfl
  ⟨⟨h1, generateCLIDocs_prune treeHiddenFail treeInstall h1 none, rfl⟩,
    ⟨h2, generateCLIDocs_prune treeTopicFail treeCheckFail h2 none, rfl⟩⟩

/-- C14: `generateCLIDocs` succeeds exactly when the extraction succeeds on every visited node
(the argument node and the nodes reached from it through eligible children). Hence failures
inside a subtree that is deleted with an ineligible child never make the walk fail, whereas a
failure on the argument node does, also when its record would be discarded. -/
theorem generateCLIDocs_succeeds_iff :
    (∀ (parent : Option String) (cmd : Command),
      (∃ docs, generateCLIDocs parent cmd = .ok docs) ↔
        ∀ n ∈ visited parent cmd, ∃ doc, commandDoc n.1 n.2 = .ok doc) ∧
    (∀ (t t' : Command), Prune t t' → ∀ parent : Option String,
      (∃ docs, generateCLIDocs parent t' = .ok docs) →
        ∃ docs, generateCLIDocs parent t = .ok docs) ∧
    (∀ (parent : Option String) (d : CommandData) (commands : List Command) (e : Error),
      commandDoc parent d = .error e →
        (∃ e', generateCLIDocs parent (.mk d commands) = .error e') ∧
        ((∀ n ∈ visitedChildren (some (CommandPath parent d)) commands,
            ∃ doc, commandDoc n.1 n.2 = .ok doc) →
          generateCLIDocs parent (.mk d commands) = .error e)) := by
  refine ⟨?_, ?_, ?_⟩
  · intro parent cmd
    rw [generateCLIDocs_eq_recordsOf]
    exact recordsOf_ok_iff _
  · intro t t' h parent hok
    rw [generateCLIDocs_eq_recordsOf] at hok ⊢
    rw [← (Prune_visited h).2 parent]
    exact hok
  · intro parent d commands e he
    constructor
    · cases hg : generateCLIDocs parent (.mk d commands) with
      | error e' => exact ⟨e', rfl⟩
      | ok docs =>
        exfalso
        rw [generateCLIDocs_eq_recordsOf] at hg
        have hall := (recordsOf_ok_iff _).1 ⟨docs, hg⟩
        obtain ⟨doc, hdoc⟩ := hall (parent, d) (by simp [visited])
        rw [he] at hdoc
        cases hdoc
    · intro hall
      rw [generateCLIDocs_eq_recordsOf, visited]
      exact recordsOf_error _ [] (parent, d) e hall he

/-- Witness of C14: `linkerd -> [install, A -> [A1]]` succeeds although the extractions of the
unavailable `A` and of `A1` fail, and `linkerd -> [install]` fails with the error of its root. -/
theorem generateCLIDocs_succeeds_iff_witness :
    ((∀ n ∈ visited none treeHiddenFail, ∃ doc, commandDoc n.1 n.2 = .ok doc) ∧
      ∃ docs, generateCLIDocs none treeHiddenFail = .ok docs) ∧
    (commandDoc none { plain "linkerd" with genYamlErr := some "root" } = .error "root" ∧
      generateCLIDocs none treeRootFail = .error "root") :=
  have hall : ∀ n ∈ visited none treeHiddenFail, ∃ doc, commandDoc n.1 n.2 = .ok doc := by
    intro n hn
    rw [commandDoc_ok_iff]
    revert n
    decide
  ⟨⟨hall, (generateCLIDocs_succeeds_iff.1 none treeHiddenFail).2 hall⟩,
    ⟨rfl, (generateCLIDocs_succeeds_iff.2.2 none { plain "linkerd" with genYamlErr := some "root" }
      [.mk (plain "install") []] "root" rfl).2 (by
        intro n hn
        rw [commandDoc_ok_iff]
        revert n
        decide)⟩⟩

/-- C15: on success, the number of records returned is the number of visited nodes whose
normalised name is not `"linkerd"`: every visited node has one record of its own and the result
consists of those not named `"linkerd"`, in order. So the number of records exceeds neither the
number of visited nodes nor the number of nodes of the hierarchy. -/
theorem generateCLIDocs_length (parent : Option String) (cmd : Command) (docs : List cmdDoc)
    (h : generateCLIDocs parent cmd = .ok docs) :
    docs.length =
      ((visited parent cmd).filter fun n => decide (normalizedName n ≠ "linkerd")).length ∧
    (∃ recs, List.Forall₂ (fun n doc => commandDoc n.1 n.2 = .ok doc) (visited parent cmd) recs ∧
      docs = recs.filter fun doc => decide (doc.Name ≠ "linkerd")) ∧
    docs.length ≤ (visited parent cmd).length ∧
    docs.length ≤ nodeCount cmd := by
  rw [generateCLIDocs_eq_recordsOf] at h
  have hlen := recordsOf_length _ docs h
  have hle : docs.length ≤ (visited parent cmd).length := by
    rw [hlen]
    exact List.length_filter_le _ _
  exact ⟨hlen, recordsOf_filter _ docs h, hle, Nat.le_trans hle (visited_length_le parent cmd)⟩

/-- Witness of C15 on `linkerd -> [linkerd -> [x]]`: three nodes are visited and one record is
returned. -/
theorem generateCLIDocs_length_witness :
    generateCLIDocs none treeNested = .ok [docNamed "linkerd x"] ∧
    (visited none treeNested).length = 3 ∧
    nodeCount treeNested = 3 ∧
    [docNamed "linkerd x"].length =
      ((visited none treeNested).filter fun n => decide (normalizedName n ≠ "linkerd")).length ∧
    (∃ recs, List.Forall₂ (fun n doc => commandDoc n.1 n.2 = .ok doc)
        (visited none treeNested) recs ∧
      [docNamed "linkerd x"] = recs.filter fun doc => decide (doc.Name ≠ "linkerd")) ∧
    [docNamed "linkerd x"].length ≤ (visited none treeNested).length ∧
    [docNamed "linkerd x"].length ≤ nodeCount treeNested :=
  ⟨rfl, rfl, rfl, generateCLIDocs_length none treeNested [docNamed "linkerd x"] rfl⟩

/-- C16: the eligibility test is applied to children only. The result of `generateCLIDocs` does
not depend on the availability flag and the help-topic flag of the node it is called on, and
when the walk succeeds that node's own record is the last element of the result unless its
normalised name is `"linkerd"`. -/
theorem generateCLIDocs_argument_flags :
    (∀ (parent : Option String) (d : CommandData) (commands : List Command) (a h : Bool),
      generateCLIDocs parent
          (.mk { d with IsAvailableCommand := a, IsAdditionalHelpTopicCommand := h } commands) =
        generateCLIDocs parent (.mk d commands)) ∧
    (∀ (parent : Option String) (d : CommandData) (commands : List Command)
        (docs : List cmdDoc) (doc : cmdDoc),
      generateCLIDocs parent (.mk d commands) = .ok docs → commandDoc parent d = .ok doc →
        doc.Name ≠ "linkerd" → docs.getLast? = some doc) := by
  constructor
  · intro parent d commands a h
    rw [generateCLIDocs_unfold, generateCLIDocs_unfold, commandDoc_flags, CommandPath_flags]
  · intro parent d commands docs doc hg hdoc hname
    rw [generateCLIDocs_eq_recordsOf, visited] at hg
    exact recordsOf_getLast _ (parent, d) docs doc hg hdoc hname

/-- Witness of C16 on the subtree `check -> [check-config]` of `linkerd`, where `check` is
unavailable and a help topic. -/
theorem generateCLIDocs_argument_flags_witness :
    generateCLIDocs (some "linkerd") treeHiddenCheck =
      generateCLIDocs (some "linkerd") (.mk (plain "check") [.mk (plain "check-config") []]) ∧
    generateCLIDocs (some "linkerd") treeHiddenCheck =
      .ok [docNamed "check check-config", docNamed "check"] ∧
    commandDoc (some "linkerd")
        { plain "check" with IsAvailableCommand := false, IsAdditionalHelpTopicCommand := true } =
      .ok (docNamed "check") ∧
    (docNamed "check").Name ≠ "linkerd" ∧
    [docNamed "check check-config", docNamed "check"].getLast? = some (docNamed "check") :=
  ⟨generateCLIDocs_argument_flags.1 (some "linkerd") (plain "check")
      [.mk (plain "check-config") []] false true,
    rfl, rfl, by decide,
    generateCLIDocs_argument_flags.2 (some "linkerd")
      { plain "check" with IsAvailableCommand := false, IsAdditionalHelpTopicCommand := true }
      [.mk (plain "check-config") []] [docNamed "check check-config", docNamed "check"]
      (docNamed "check") rfl rfl (by decide)⟩

end DocCmd
